import Mathlib

/-!
Verification of the dynamic parameter store of the `rush` repository
(`include/rush/ros-parameter-manager.hpp`): the `ParamValue` wrapper and the
`ParamMapper` map (spec names: `DynamicValue` / `ParameterStore`).

Strings are modelled as lists of characters (`Str`), so that the byte-wise
lexicographic order used by `std::map<std::string, ...>` and
`std::set<std::string>` and the substring operations of `load` are explicit
and computable.  The external ROS master (`ros::param`, `ros::this_node`) is
the spec's `ParameterSource` collaborator and is modelled as an abstract
record of a context path, a name listing and a partial fetch function.
-/

namespace Rush

/-- Strings as character lists, so comparisons and slicing compute. -/
abbrev Str := List Char

/-- Character-list view of a string literal. -/
def str (s : String) : Str := s.data

/-- Lexicographic strict order on character lists, modelling the ordering of
`std::string` used by `std::map` and `std::set` (`operator<`, byte-wise;
code points coincide with bytes for the ASCII names used here). -/
def strLt : Str → Str → Bool
  | [], [] => false
  | [], _ :: _ => true
  | _ :: _, [] => false
  | a :: as, b :: bs =>
      if a.toNat < b.toNat then true
      else if b.toNat < a.toNat then false
      else strLt as bs

/-- Modelled from the spec: the raw value shape supplied by the parameter
source (`XmlRpc::XmlRpcValue` of the external `xmlrpcpp` library, which is
not part of this repository): a tagged variant over booleans, integers,
floating-point numbers (modelled as rationals), strings and nested lists;
`invalid` is the default-constructed, typeless state. -/
inductive XmlRpcValue where
  | invalid : XmlRpcValue
  | boolean : Bool → XmlRpcValue
  | int : Int → XmlRpcValue
  | double : Rat → XmlRpcValue
  | strVal : Str → XmlRpcValue
  | list : List XmlRpcValue → XmlRpcValue

/-- The error kinds surfaced by the store (spec section 7). -/
inductive RushError where
  | keyNotFound : Str → RushError
  | typeMismatch : RushError
deriving DecidableEq

/-- `rush::ros::ParamValue`: wraps one `XmlRpcValue`. -/
structure ParamValue where
  value_ : XmlRpcValue

/-- Modelled from the spec: conversion of the wrapped raw value to `int`
(`ParamValue::as<int>`, a `static_cast` whose semantics live in the external
`xmlrpcpp` library): succeeds on integers, performs the documented
boolean→integer widening, and fails with `TypeMismatch` otherwise. -/
def xmlAsInt : XmlRpcValue → Except RushError Int
  | .int i => .ok i
  | .boolean b => .ok (if b then 1 else 0)
  | _ => .error .typeMismatch

/-- Modelled from the spec: conversion of the wrapped raw value to `double`
(`ParamValue::as<double>`): succeeds on doubles, performs the documented
integer→double widening, and fails with `TypeMismatch` otherwise. -/
def xmlAsDouble : XmlRpcValue → Except RushError Rat
  | .double d => .ok d
  | .int i => .ok (i : Rat)
  | _ => .error .typeMismatch

/-- Modelled from the spec: conversion of the wrapped raw value to `bool`
(`ParamValue::as<bool>`): strict, no widening is documented into `bool`. -/
def xmlAsBool : XmlRpcValue → Except RushError Bool
  | .boolean b => .ok b
  | _ => .error .typeMismatch

/-- Modelled from the spec: conversion of the wrapped raw value to a string
(`ParamValue::as<std::string>`): strict. -/
def xmlAsString : XmlRpcValue → Except RushError Str
  | .strVal s => .ok s
  | _ => .error .typeMismatch

/-- `ParamValue::as<int>()`. -/
def ParamValue.asInt (p : ParamValue) : Except RushError Int := xmlAsInt p.value_

/-- `ParamValue::as<double>()`. -/
def ParamValue.asDouble (p : ParamValue) : Except RushError Rat := xmlAsDouble p.value_

/-- `ParamValue::as<bool>()`. -/
def ParamValue.asBool (p : ParamValue) : Except RushError Bool := xmlAsBool p.value_

/-- `ParamValue::as<std::string>()`. -/
def ParamValue.asString (p : ParamValue) : Except RushError Str := xmlAsString p.value_

/-- The `while(i < value_.size()) x.push_back(static_cast<T>(value_[i++]))`
loop of `ParamValue::as_vec`: converts the elements in order, appending each
to the accumulator, and propagates the first element-conversion failure. -/
def as_vecLoop {T : Type} (conv : XmlRpcValue → Except RushError T) :
    List XmlRpcValue → List T → Except RushError (List T)
  | [], acc => .ok acc
  | e :: rest, acc =>
      match conv e with
      | .ok t => as_vecLoop conv rest (acc ++ [t])
      | .error err => .error err

/-- `ParamValue::as_vec(std::vector<T> &x)`: first `if(!x.empty()) x.clear();`,
then the element loop.  Element access and `size()` on a non-list value are
modelled from the spec (`TypeMismatch` when the value is not a list); the
clearing and the loop structure are from the source. -/
def as_vec {T : Type} (conv : XmlRpcValue → Except RushError T)
    (p : ParamValue) (x : List T) : Except RushError (List T) :=
  let x0 : List T := if x.isEmpty then x else []
  match p.value_ with
  | .list l => as_vecLoop conv l x0
  | _ => .error .typeMismatch

/-- The plain spec-side description of the list conversion: convert every
element in stored order, failing as soon as one element fails.  Used to
compare `as_vec` (the source translation) against the spec's words. -/
def convertedElems {T : Type} (conv : XmlRpcValue → Except RushError T) :
    List XmlRpcValue → Except RushError (List T)
  | [] => .ok []
  | e :: rest =>
      match conv e with
      | .ok t => (convertedElems conv rest).map (t :: ·)
      | .error err => .error err

/-- The external parameter source (the ROS master reached through
`ros::param` and `ros::this_node`; the spec's `ParameterSource`):
`context` is `ros::this_node::getNamespace()`, `names` the listing returned
by `ros::param::getParamNames` (in the order the source reports them), and
`params` the backing name→value association queried by `ros::param::get`. -/
structure ParamSource where
  context : Str
  names : List Str
  params : List (Str × XmlRpcValue)

/-- `ros::param::get(n, v)`: `some` value on success, `none` when the source
cannot fetch the name (in which case the C++ output argument `v` is left
untouched). -/
def ParamSource.get (src : ParamSource) (n : Str) : Option XmlRpcValue :=
  (src.params.find? (fun p => p.1 = n)).map (·.2)

/-- Sorted-insert-or-assign on the key-sorted association list modelling
`std::map<std::string, ParamValue>`; covers both branches of the body of
`ParamMapper::load` (`emplace` when `count(key) < 1`, assignment through
`operator[]` otherwise), which in `std::map` amount to placing the entry at
its sorted position, overwriting the value when the key is present. -/
def mapInsert (k : Str) (v : ParamValue) :
    List (Str × ParamValue) → List (Str × ParamValue)
  | [] => [(k, v)]
  | (a, b) :: rest =>
      if strLt k a then (k, v) :: (a, b) :: rest
      else if k = a then (k, v) :: rest
      else (a, b) :: mapInsert k v rest

/-- `std::map::find`-style lookup on the association list. -/
def mapFind (k : Str) : List (Str × ParamValue) → Option ParamValue
  | [] => none
  | (a, b) :: rest => if k = a then some b else mapFind k rest

/-- `std::map<std::string, ParamValue>::count(key)`. -/
def mapCount (k : Str) (m : List (Str × ParamValue)) : Nat :=
  m.countP (fun p => p.1 = k)

/-- The key sequence of the map in iteration order. -/
def mapKeys (m : List (Str × ParamValue)) : List Str := m.map (·.1)

/-- The map is sorted strictly by key: the `std::map` representation
invariant. -/
def SortedMap (m : List (Str × ParamValue)) : Prop :=
  m.Pairwise (fun p q => strLt p.1 q.1 = true)

/-- Sorted insert on the element-sorted duplicate-free list modelling
`std::set<std::string>` (`ns_.insert`): no-op when the element is present. -/
def setInsert (x : Str) : List Str → List Str
  | [] => [x]
  | y :: rest =>
      if strLt x y then x :: y :: rest
      else if x = y then y :: rest
      else y :: setInsert x rest

/-- The namespace set is sorted strictly: the `std::set` representation
invariant. -/
def SortedSet (s : List Str) : Prop := s.Pairwise (fun a b => strLt a b = true)

/-- `rush::ros::ParamMapper`: publicly a `std::map<std::string, ParamValue>`
(`map`), plus the private `std::set<std::string> ns_` of namespaces passed
to `load`. -/
structure ParamMapper where
  map : List (Str × ParamValue)
  ns_ : List Str

/-- A default-constructed `ParamMapper`. -/
def ParamMapper.empty : ParamMapper := ⟨[], []⟩

/-- `std::map<std::string, ParamValue>::operator[]` (the base-class
subscript): returns the mapped value, inserting a default-constructed
`ParamValue` first when the key is absent. -/
def mapSubscript (m : List (Str × ParamValue)) (key : Str) :
    ParamValue × List (Str × ParamValue) :=
  match mapFind key m with
  | some v => (v, m)
  | none => (⟨.invalid⟩, mapInsert key ⟨.invalid⟩ m)

/-- `ParamMapper::operator[](key)`: throws (`KeyNotFound`) when
`count(key) < 1`, otherwise defers to the base-class subscript.  The pair
also returns the resulting map state, so that non-mutation is statable. -/
def ParamMapper.subscript (pm : ParamMapper) (key : Str) :
    Except RushError ParamValue × ParamMapper :=
  if mapCount key pm.map < 1 then (.error (.keyNotFound key), pm)
  else
    let r := mapSubscript pm.map key
    (.ok r.1, { pm with map := r.2 })

/-- The namespace normalization at the head of `ParamMapper::load`:
`if(ns.empty() || ns.back() != '/') ns += '/';`. -/
def ensureSlash (ns : Str) : Str :=
  if ns = [] ∨ ns.getLast? ≠ some '/' then ns ++ ['/'] else ns

/-- The full namespace normalization of `ParamMapper::load`: ensure the
trailing separator, then `if(ns.front() != '/') ns = getNamespace() + ns;`
(contexts come from the source collaborator). -/
def normalizeNs (ctx : Str) (ns : Str) : Str :=
  let ns1 := ensureSlash ns
  if ns1.head? ≠ some '/' then ctx ++ ns1 else ns1

/-- The name loop of `ParamMapper::load`: for each matched name, fetch it
into the single reused buffer `v` (`ros::param::get` leaves `v` untouched on
failure and its return value is ignored by the source), strip the first
`ns.size()` characters, and insert or overwrite the key. -/
def loadLoop (src : ParamSource) (nsLen : Nat) :
    List Str → XmlRpcValue → List (Str × ParamValue) → List (Str × ParamValue)
  | [], _, m => m
  | n :: rest, v, m =>
      let v1 := (src.get n).getD v
      loadLoop src nsLen rest v1 (mapInsert (n.drop nsLen) ⟨v1⟩ m)

/-- `ParamMapper::load(ns)`: record the raw namespace argument in `ns_`
(the insertion happens before normalization), normalize, filter the source's
listing to the names having the normalized namespace as a prefix
(`s.compare(0, ns.size(), ns) == 0`), and run the name loop with a
default-constructed fetch buffer.  The fixed settling sleep at the head of
the C++ body has no observable effect on the state and is not modelled. -/
def ParamMapper.load (src : ParamSource) (pm : ParamMapper) (ns : Str) :
    ParamMapper :=
  let nsN := normalizeNs src.context ns
  let names := src.names.filter (fun s => nsN.isPrefixOf s)
  { map := loadLoop src nsN.length names .invalid pm.map
    ns_ := setInsert ns pm.ns_ }

/-- `ParamMapper::reload()`: clear the map, then `load(ns)` for each
namespace in `ns_`, in the set's iteration order. -/
def ParamMapper.reload (src : ParamSource) (pm : ParamMapper) : ParamMapper :=
  pm.ns_.foldl (fun acc ns => acc.load src ns) { pm with map := [] }

/-- `ParamMapper::getKeys()`: empty vector on the empty map, otherwise the
keys in map iteration order. -/
def ParamMapper.getKeys (pm : ParamMapper) : List Str :=
  if pm.map.isEmpty then [] else mapKeys pm.map

/-- A sequence of `load` calls against one source, in call order: the
observable registration history a caller produces. -/
def loadSeq (src : ParamSource) : ParamMapper → List Str → ParamMapper
  | pm, [] => pm
  | pm, ns :: rest => loadSeq src (pm.load src ns) rest

/-- Source exposing key `k` under both `/a/` and `/b/`, with different
values, to exercise namespace-collision resolution. -/
def srcC : ParamSource :=
  ⟨str "/", [str "/a/k", str "/b/k"],
   [(str "/a/k", .int 1), (str "/b/k", .int 2)]⟩

/-- Store obtained by registering `/b/` first and `/a/` second against
`srcC`. -/
def pmC : ParamMapper := loadSeq srcC ParamMapper.empty [str "/b/", str "/a/"]

/-- Source listing `/n/b` before `/n/a`, to exercise enumeration order. -/
def srcO : ParamSource :=
  ⟨str "/", [str "/n/b", str "/n/a"],
   [(str "/n/b", .int 1), (str "/n/a", .int 2)]⟩

/-- Store loaded from `srcO` under `/n/`: insertion order is `b` then `a`. -/
def pmO : ParamMapper := ParamMapper.load srcO ParamMapper.empty (str "/n/")

/-- Source reporting a name with a doubled separator under `/a/`. -/
def srcD : ParamSource :=
  ⟨str "/", [str "/a//a/x"], [(str "/a//a/x", .int 1)]⟩

/-- Source where fetching `/a/x` fails and fetching `/a/y` succeeds. -/
def srcF : ParamSource :=
  ⟨str "/", [str "/a/x", str "/a/y"], [(str "/a/y", .int 2)]⟩

/-- Source where `/a/p` fetches `5` and the later fetch of `/a/q` fails. -/
def srcG : ParamSource :=
  ⟨str "/", [str "/a/p", str "/a/q"], [(str "/a/p", .int 5)]⟩

/-- First source of the additive-overwrite scenario: only `/a/k = 1`. -/
def src8a : ParamSource := ⟨str "/", [str "/a/k"], [(str "/a/k", .int 1)]⟩

/-- Second source of the additive-overwrite scenario: `/a/k` changed to `2`
and `/a/j = 3` added. -/
def src8b : ParamSource :=
  ⟨str "/", [str "/a/k", str "/a/j"],
   [(str "/a/k", .int 2), (str "/a/j", .int 3)]⟩

/-- Store after the first load of the additive-overwrite scenario. -/
def pm8a : ParamMapper := ParamMapper.load src8a ParamMapper.empty (str "/a/")

/-- Store after the second load of the additive-overwrite scenario. -/
def pm8b : ParamMapper := ParamMapper.load src8b pm8a (str "/a/")

/-- Source with an empty listing, for the namespace-registration examples. -/
def srcR : ParamSource := ⟨str "/", [], []⟩

theorem strLt_irrefl : ∀ a : Str, strLt a a = false := by
  intro a
  induction a with
  | nil => rfl
  | cons x xs ih => simp [strLt, ih]

theorem strLt_trans : ∀ {a b c : Str},
    strLt a b = true → strLt b c = true → strLt a c = true := by
  intro a
  induction a with
  | nil =>
    intro b c hab hbc
    cases b <;> cases c <;> simp_all [strLt]
  | cons x xs ih =>
    intro b c hab hbc
    cases b with
    | nil => simp [strLt] at hab
    | cons y ys =>
      cases c with
      | nil => simp [strLt] at hbc
      | cons z zs =>
        simp only [strLt] at hab hbc ⊢
        split_ifs at hab hbc ⊢ <;>
          first
          | rfl
          | exact ih hab hbc
          | omega

theorem strLt_asymm {a b : Str} (h : strLt a b = true) : strLt b a = false := by
  cases hba : strLt b a with
  | false => rfl
  | true => exact absurd (strLt_trans h hba) (by simp [strLt_irrefl])

theorem char_toNat_inj {x y : Char} (h : x.toNat = y.toNat) : x = y :=
  Char.ext (UInt32.toNat.inj h)

theorem strLt_of_not_of_ne : ∀ {a b : Str},
    strLt a b = false → a ≠ b → strLt b a = true := by
  intro a
  induction a with
  | nil =>
    intro b h1 h2
    cases b with
    | nil => exact absurd rfl h2
    | cons y ys => simp [strLt] at h1
  | cons x xs ih =>
    intro b h1 h2
    cases b with
    | nil => rfl
    | cons y ys =>
      simp only [strLt] at h1 ⊢
      split_ifs at h1 ⊢ <;>
        first
        | rfl
        | omega
        | exact h1
        | (exact ih h1 (fun hxy => h2 (by
            have : x = y := char_toNat_inj (by omega)
            rw [this, hxy])))

theorem setInsert_mem : ∀ {s : List Str} {x z : Str},
    z ∈ setInsert x s ↔ z = x ∨ z ∈ s := by
  intro s
  induction s with
  | nil => simp [setInsert]
  | cons y rest ih =>
    intro x z
    simp only [setInsert]
    split_ifs with h1 h2
    · simp [List.mem_cons]
    · subst h2; simp [List.mem_cons]
    · simp only [List.mem_cons, ih]; tauto

theorem setInsert_sorted {x : Str} : ∀ {s : List Str},
    SortedSet s → SortedSet (setInsert x s) := by
  intro s
  induction s with
  | nil => intro _; simp [setInsert, SortedSet]
  | cons y rest ih =>
    intro h
    rw [SortedSet, List.pairwise_cons] at h
    obtain ⟨hy, hrest⟩ := h
    simp only [setInsert]
    split_ifs with h1 h2
    · refine List.Pairwise.cons ?_ (List.Pairwise.cons hy hrest)
      intro z hz
      rcases List.mem_cons.mp hz with rfl | hz
      · exact h1
      · exact strLt_trans h1 (hy z hz)
    · exact List.Pairwise.cons hy hrest
    · refine List.Pairwise.cons ?_ (ih hrest)
      intro z hz
      rcases setInsert_mem.mp hz with rfl | hz
      · exact strLt_of_not_of_ne (by simpa using h1) h2
      · exact hy z hz

theorem setInsert_idem (x : Str) : ∀ s : List Str,
    setInsert x (setInsert x s) = setInsert x s := by
  intro s
  induction s with
  | nil => simp [setInsert, strLt_irrefl]
  | cons y rest ih =>
    simp only [setInsert]
    split_ifs with h1 h2
    · simp [setInsert, strLt_irrefl]
    · subst h2; simp [setInsert, strLt_irrefl]
    · simp only [setInsert, if_neg h1, if_neg h2, ih]

theorem setInsert_noop {x : Str} : ∀ {s : List Str},
    SortedSet s → x ∈ s → setInsert x s = s := by
  intro s
  induction s with
  | nil => intro _ hm; cases hm
  | cons y rest ih =>
    intro h hm
    rw [SortedSet, List.pairwise_cons] at h
    obtain ⟨hy, hrest⟩ := h
    simp only [setInsert]
    rcases List.mem_cons.mp hm with rfl | hm
    · rw [if_neg (by simp [strLt_irrefl]), if_pos rfl]
    · have hyx : strLt y x = true := hy x hm
      rw [if_neg (by simp [strLt_asymm hyx]),
          if_neg (fun he => by simp [he, strLt_irrefl] at hyx), ih hrest hm]

theorem setInsert_append {x : Str} : ∀ {s : List Str},
    (∀ y ∈ s, strLt y x = true) → setInsert x s = s ++ [x] := by
  intro s
  induction s with
  | nil => intro _; rfl
  | cons y rest ih =>
    intro h
    have hyx : strLt y x = true := h y (List.mem_cons_self y rest)
    simp only [setInsert]
    rw [if_neg (by simp [strLt_asymm hyx]),
        if_neg (fun he => by simp [he, strLt_irrefl] at hyx),
        ih (fun z hz => h z (List.mem_cons_of_mem y hz))]
    rfl

theorem foldl_setInsert_ascending : ∀ {d s : List Str},
    SortedSet (s ++ d) → d.foldl (fun acc y => setInsert y acc) s = s ++ d := by
  intro d
  induction d with
  | nil => intro s _; simp
  | cons x rest ih =>
    intro s h
    have hlt : ∀ y ∈ s, strLt y x = true := by
      intro y hy
      have := (List.pairwise_append.mp h).2.2 y hy x (List.mem_cons_self x rest)
      exact this
    have hstep : setInsert x s = s ++ [x] := setInsert_append hlt
    have h2 : SortedSet ((s ++ [x]) ++ rest) := by
      rw [List.append_assoc]
      simpa using h
    calc (x :: rest).foldl (fun acc y => setInsert y acc) s
        = rest.foldl (fun acc y => setInsert y acc) (s ++ [x]) := by
          simp [List.foldl_cons, hstep]
      _ = (s ++ [x]) ++ rest := ih h2
      _ = s ++ x :: rest := by simp

theorem foldl_setInsert_noop : ∀ {d s : List Str},
    SortedSet s → (∀ y ∈ d, y ∈ s) → d.foldl (fun acc y => setInsert y acc) s = s := by
  intro d
  induction d with
  | nil => intro s _ _; rfl
  | cons x rest ih =>
    intro s hs hd
    have hstep : setInsert x s = s := setInsert_noop hs (hd x (List.mem_cons_self x rest))
    simp only [List.foldl_cons, hstep]
    exact ih hs (fun y hy => hd y (List.mem_cons_of_mem x hy))

theorem mapInsert_mem_entry : ∀ {m : List (Str × ParamValue)} {k v z},
    z ∈ mapInsert k v m → z = (k, v) ∨ z ∈ m := by
  intro m
  induction m with
  | nil => intro k v z hz; simpa [mapInsert] using hz
  | cons p rest ih =>
    intro k v z hz
    obtain ⟨a, b⟩ := p
    simp only [mapInsert] at hz
    split_ifs at hz
    · rcases List.mem_cons.mp hz with rfl | hz
      · exact Or.inl rfl
      · exact Or.inr hz
    · rcases List.mem_cons.mp hz with rfl | hz
      · exact Or.inl rfl
      · exact Or.inr (List.mem_cons_of_mem _ hz)
    · rcases List.mem_cons.mp hz with rfl | hz
      · exact Or.inr (List.mem_cons_self _ _)
      · rcases ih hz with h | h
        · exact Or.inl h
        · exact Or.inr (List.mem_cons_of_mem _ h)

theorem mapKeys_mapInsert : ∀ {m : List (Str × ParamValue)} {k v k'},
    k' ∈ mapKeys (mapInsert k v m) ↔ k' = k ∨ k' ∈ mapKeys m := by
  intro m
  induction m with
  | nil => intro k v k'; simp [mapInsert, mapKeys]
  | cons p rest ih =>
    intro k v k'
    obtain ⟨a, b⟩ := p
    simp only [mapInsert]
    split_ifs with h1 h2
    · simp only [mapKeys, List.map_cons, List.mem_cons]
    · subst h2
      simp only [mapKeys, List.map_cons, List.mem_cons]
      tauto
    · simp only [mapKeys, List.map_cons, List.mem_cons] at ih ⊢
      rw [ih]
      tauto

theorem mapInsert_sorted {k : Str} {v : ParamValue} : ∀ {m : List (Str × ParamValue)},
    SortedMap m → SortedMap (mapInsert k v m) := by
  intro m
  induction m with
  | nil => intro _; simp [mapInsert, SortedMap]
  | cons p rest ih =>
    intro h
    obtain ⟨a, b⟩ := p
    rw [SortedMap, List.pairwise_cons] at h
    obtain ⟨ha, hrest⟩ := h
    simp only [mapInsert]
    split_ifs with h1 h2
    · refine List.Pairwise.cons ?_ (List.Pairwise.cons ha hrest)
      intro z hz
      rcases List.mem_cons.mp hz with rfl | hz
      · exact h1
      · exact strLt_trans h1 (ha z hz)
    · subst h2
      exact List.Pairwise.cons ha hrest
    · refine List.Pairwise.cons ?_ (ih hrest)
      intro z hz
      rcases mapInsert_mem_entry hz with rfl | hz
      · exact strLt_of_not_of_ne (by simpa using h1) h2
      · exact ha z hz

theorem loadLoop_keys (src : ParamSource) (nsLen : Nat) :
    ∀ (names : List Str) (v : XmlRpcValue) (m : List (Str × ParamValue)) (k : Str),
    k ∈ mapKeys (loadLoop src nsLen names v m) ↔
      (∃ n ∈ names, n.drop nsLen = k) ∨ k ∈ mapKeys m := by
  intro names
  induction names with
  | nil => intro v m k; simp [loadLoop]
  | cons n rest ih =>
    intro v m k
    simp only [loadLoop]
    rw [ih]
    simp only [mapKeys_mapInsert, List.mem_cons]
    constructor
    · rintro (⟨n', hn', rfl⟩ | (rfl | hk))
      · exact Or.inl ⟨n', Or.inr hn', rfl⟩
      · exact Or.inl ⟨n, Or.inl rfl, rfl⟩
      · exact Or.inr hk
    · rintro (⟨n', (rfl | hn'), rfl⟩ | hk)
      · exact Or.inr (Or.inl rfl)
      · exact Or.inl ⟨n', hn', rfl⟩
      · exact Or.inr (Or.inr hk)

theorem loadLoop_sorted (src : ParamSource) (nsLen : Nat) :
    ∀ (names : List Str) (v : XmlRpcValue) {m : List (Str × ParamValue)},
    SortedMap m → SortedMap (loadLoop src nsLen names v m) := by
  intro names
  induction names with
  | nil => intro v m h; exact h
  | cons n rest ih => intro v m h; exact ih _ (mapInsert_sorted h)

theorem load_keys {src : ParamSource} {pm : ParamMapper} {ns k : Str} :
    k ∈ mapKeys (pm.load src ns).map ↔
      (∃ n ∈ src.names, (normalizeNs src.context ns).isPrefixOf n = true ∧
        n.drop (normalizeNs src.context ns).length = k)
      ∨ k ∈ mapKeys pm.map := by
  rw [ParamMapper.load]
  rw [loadLoop_keys]
  constructor
  · rintro (⟨n, hn, rfl⟩ | hk)
    · have := List.mem_filter.mp hn
      exact Or.inl ⟨n, this.1, by simpa using this.2, rfl⟩
    · exact Or.inr hk
  · rintro (⟨n, hn, hp, rfl⟩ | hk)
    · exact Or.inl ⟨n, List.mem_filter.mpr ⟨hn, by simpa using hp⟩, rfl⟩
    · exact Or.inr hk

theorem load_sorted {src : ParamSource} {pm : ParamMapper} {ns : Str}
    (h : SortedMap pm.map) : SortedMap (pm.load src ns).map :=
  loadLoop_sorted src _ _ _ h

theorem loadSeq_sorted {src : ParamSource} : ∀ {l : List Str} {pm : ParamMapper},
    SortedMap pm.map → SortedMap (loadSeq src pm l).map := by
  intro l
  induction l with
  | nil => intro pm h; exact h
  | cons ns rest ih => intro pm h; exact ih (load_sorted h)

theorem paramMapper_ext : ∀ {p q : ParamMapper},
    p.map = q.map → p.ns_ = q.ns_ → p = q := by
  intro p q h1 h2
  cases p
  cases q
  cases h1
  cases h2
  rfl

theorem loadSeq_ns (src : ParamSource) : ∀ (l : List Str) (pm : ParamMapper),
    (loadSeq src pm l).ns_ = l.foldl (fun s n => setInsert n s) pm.ns_ := by
  intro l
  induction l with
  | nil => intro pm; rfl
  | cons ns rest ih => intro pm; exact ih (pm.load src ns)

theorem loadSeq_map_congr (src : ParamSource) : ∀ (l : List Str) {pm qm : ParamMapper},
    pm.map = qm.map → (loadSeq src pm l).map = (loadSeq src qm l).map := by
  intro l
  induction l with
  | nil => intro pm qm h; exact h
  | cons ns rest ih =>
    intro pm qm h
    exact ih (by simp only [ParamMapper.load, h])

theorem reload_eq_loadSeq (src : ParamSource) (pm : ParamMapper) :
    pm.reload src = loadSeq src { pm with map := [] } pm.ns_ := by
  rw [ParamMapper.reload]
  generalize ({ pm with map := [] } : ParamMapper) = q
  induction pm.ns_ generalizing q with
  | nil => rfl
  | cons ns rest ih => simp only [List.foldl_cons, loadSeq, ih]

theorem sortedSet_foldl_setInsert : ∀ (l : List Str) {s : List Str},
    SortedSet s → SortedSet (l.foldl (fun acc n => setInsert n acc) s) := by
  intro l
  induction l with
  | nil => intro s h; exact h
  | cons x rest ih => intro s h; exact ih (setInsert_sorted h)

theorem as_vecLoop_eq {T : Type} (conv : XmlRpcValue → Except RushError T) :
    ∀ (l : List XmlRpcValue) (acc : List T),
    as_vecLoop conv l acc = (convertedElems conv l).map (acc ++ ·) := by
  intro l
  induction l with
  | nil => intro acc; simp [as_vecLoop, convertedElems, Except.map]
  | cons e rest ih =>
    intro acc
    simp only [as_vecLoop, convertedElems]
    cases hconv : conv e with
    | error err => rfl
    | ok t =>
      show as_vecLoop conv rest (acc ++ [t])
        = Except.map (fun x => acc ++ x) (Except.map (fun x => t :: x) (convertedElems conv rest))
      rw [ih]
      cases convertedElems conv rest with
      | error err2 => rfl
      | ok l2 => simp [Except.map]

theorem convertedElems_error {T : Type} (conv : XmlRpcValue → Except RushError T) :
    ∀ {l : List XmlRpcValue} {e : XmlRpcValue} {err : RushError},
    e ∈ l → conv e = .error err →
    ∃ err2, convertedElems conv l = (.error err2 : Except RushError (List T)) := by
  intro l
  induction l with
  | nil => intro e err he _; cases he
  | cons a rest ih =>
    intro e err he hc
    rcases List.mem_cons.mp he with rfl | he
    · exact ⟨err, by simp [convertedElems, hc]⟩
    · cases hconv : conv a with
      | error err0 => exact ⟨err0, by simp [convertedElems, hconv]⟩
      | ok t =>
        obtain ⟨err2, h2⟩ := ih he hc
        exact ⟨err2, by simp [convertedElems, hconv, h2, Except.map]⟩

theorem ensureSlash_getLast (ns : Str) : (ensureSlash ns).getLast? = some '/' := by
  rw [ensureSlash]
  split_ifs with h
  · exact List.getLast?_concat ns
  · push_neg at h
    exact h.2

theorem ensureSlash_ne_nil (ns : Str) : ensureSlash ns ≠ [] := by
  intro h
  have := ensureSlash_getLast ns
  rw [h] at this
  cases this

theorem ensureSlash_head {ns : Str} (h : ns ≠ []) :
    (ensureSlash ns).head? = ns.head? := by
  rw [ensureSlash]
  split_ifs with h1
  · cases ns with
    | nil => exact absurd rfl h
    | cons c rest => rfl
  · rfl

theorem normalizeNs_getLast (ctx ns : Str) :
    (normalizeNs ctx ns).getLast? = some '/' := by
  rw [normalizeNs]
  split_ifs with h
  · rw [List.getLast?_append, ensureSlash_getLast]
    rfl
  · exact ensureSlash_getLast ns

theorem normalizeNs_rel {ctx ns : Str} (h1 : ns ≠ []) (h2 : ns.head? ≠ some '/') :
    normalizeNs ctx ns = ctx ++ ensureSlash ns := by
  rw [normalizeNs, if_pos]
  rw [ensureSlash_head h1]
  exact h2

theorem normalizeNs_abs {ctx ns : Str} (h : ns.head? = some '/') :
    normalizeNs ctx ns = ensureSlash ns := by
  have hne : ns ≠ [] := by
    intro he
    rw [he] at h
    cases h
  rw [normalizeNs, if_neg]
  rw [ensureSlash_head hne, h]
  simp

/-- C1 (counterexample): `reload()` is not equivalent to clearing the store
and replaying `load` over the namespaces in registration order.  With key
`k` exposed under both `/b/` (value `2`) and `/a/` (value `1`), registering
`/b/` first and `/a/` second, `reload()` yields `k = 2` (the set `ns_`
iterates in lexicographic order, so `/b/` is pulled last), while the
registration-order replay yields `k = 1`; in particular the namespace
registered later does not win. -/
theorem reload_registration_order_cex :
    mapFind (str "k") (pmC.reload srcC).map = some ⟨.int 2⟩
    ∧ mapFind (str "k")
        (loadSeq srcC { pmC with map := [] } [str "/b/", str "/a/"]).map
        = some ⟨.int 1⟩
    ∧ pmC.reload srcC ≠ loadSeq srcC { pmC with map := [] } [str "/b/", str "/a/"] := by
  refine ⟨rfl, rfl, fun h => ?_⟩
  have h2 : (some (ParamValue.mk (.int 2)) : Option ParamValue) = some ⟨.int 1⟩ := by
    calc (some (ParamValue.mk (.int 2)) : Option ParamValue)
        = mapFind (str "k") (pmC.reload srcC).map := rfl
      _ = mapFind (str "k")
            (loadSeq srcC { pmC with map := [] } [str "/b/", str "/a/"]).map := by rw [h]
      _ = some ⟨.int 1⟩ := rfl
  simp only [Option.some.injEq, ParamValue.mk.injEq, XmlRpcValue.int.injEq] at h2
  omega

/-- C1 (amended): `reload()` is equivalent to clearing the store and calling
`load(ns)` once for every distinct namespace string ever registered, in
lexicographically sorted order (the iteration order of the
`std::set<std::string>` member `ns_`), not in registration order; on key
collisions the namespace loaded last in that sorted order wins. -/
theorem reload_clears_and_replays_sorted (src : ParamSource) (l : List Str) :
    (loadSeq src ParamMapper.empty l).reload src
      = loadSeq src ParamMapper.empty (l.foldl (fun s n => setInsert n s) []) := by
  have hns : (loadSeq src ParamMapper.empty l).ns_
      = l.foldl (fun s n => setInsert n s) [] := loadSeq_ns src l ParamMapper.empty
  have hsD : SortedSet (l.foldl (fun s n => setInsert n s) []) :=
    sortedSet_foldl_setInsert l List.Pairwise.nil
  rw [reload_eq_loadSeq, hns]
  apply paramMapper_ext
  · exact loadSeq_map_congr src _ rfl
  · rw [loadSeq_ns, loadSeq_ns]
    have h1 : List.foldl (fun s n => setInsert n s)
          (l.foldl (fun s n => setInsert n s) [])
          (l.foldl (fun s n => setInsert n s) [])
        = l.foldl (fun s n => setInsert n s) [] :=
      foldl_setInsert_noop hsD (fun y hy => hy)
    have h2 : List.foldl (fun s n => setInsert n s) []
          (l.foldl (fun s n => setInsert n s) [])
        = l.foldl (fun s n => setInsert n s) [] := by
      have h3 := foldl_setInsert_ascending
        (d := l.foldl (fun s n => setInsert n s) []) (s := []) (by simpa using hsD)
      simpa using h3
    exact h1.trans h2.symm

/-- C2 (counterexample): a key in the store can retain the namespace prefix.
Under namespace `/a/`, the reported name `/a//a/x` (doubled separator) is
stripped of its first four characters only, leaving the key `/a/x`, which
still starts with the namespace prefix `/a/`. -/
theorem load_key_retains_ns_cex :
    (ParamMapper.load srcD ParamMapper.empty (str "/a/")).getKeys = [str "/a/x"]
    ∧ (str "/a/").isPrefixOf (str "/a/x") = true :=
  ⟨rfl, by decide⟩

/-- C2 (amended): after any `load(ns)` call, every name reported by the
source under the normalized namespace appears as a key equal to that name
with its first `ns.size()` characters removed; every key of the resulting
store is either such a stripped name or was present before the call, so a
key can retain the namespace prefix only when it predates the call or the
reported name contains the prefix twice. -/
theorem load_strips_ns_from_reported_names (src : ParamSource) (pm : ParamMapper) (ns : Str) :
    (∀ n ∈ src.names, (normalizeNs src.context ns).isPrefixOf n = true →
        n.drop (normalizeNs src.context ns).length ∈ mapKeys (pm.load src ns).map)
    ∧ (∀ k ∈ mapKeys (pm.load src ns).map,
        k ∈ mapKeys pm.map ∨
          ∃ n ∈ src.names, (normalizeNs src.context ns).isPrefixOf n = true ∧
            k = n.drop (normalizeNs src.context ns).length) := by
  constructor
  · intro n hn hp
    exact load_keys.mpr (Or.inl ⟨n, hn, hp, rfl⟩)
  · intro k hk
    rcases load_keys.mp hk with ⟨n, hn, hp, rfl⟩ | h
    · exact Or.inr ⟨n, hn, hp, rfl⟩
    · exact Or.inl h

/-- C2 (witness): the stripped form of the reported name `/n/b` is a key of
the store loaded from `srcO` under `/n/`. -/
theorem load_strips_ns_witness :
    (str "/n/b").drop (normalizeNs srcO.context (str "/n/")).length
      ∈ mapKeys (ParamMapper.load srcO ParamMapper.empty (str "/n/")).map :=
  (load_strips_ns_from_reported_names srcO ParamMapper.empty (str "/n/")).1
    (str "/n/b") (by decide) (by decide)

/-- C3 (confirmed): `ParamMapper::operator[]` on an absent key fails with
the key-not-found error, inserts nothing, returns no default-constructed
value, and leaves the mapping (and the whole store) unchanged. -/
theorem subscript_absent_key_fails (pm : ParamMapper) (key : Str)
    (h : mapCount key pm.map < 1) :
    pm.subscript key = (.error (.keyNotFound key), pm) := by
  rw [ParamMapper.subscript, if_pos h]

/-- C3 (witness): looking up `missing` in the `/n/` store fails and leaves
the store unchanged. -/
theorem subscript_absent_key_fails_witness :
    mapCount (str "missing") pmO.map < 1
    ∧ pmO.subscript (str "missing")
        = (.error (.keyNotFound (str "missing")), pmO) :=
  ⟨by decide, subscript_absent_key_fails pmO (str "missing") (by decide)⟩

/-- C4 (counterexample): a failed fetch of an individual matched name does
not abort `load` and reports no error.  With the fetch of `/a/x` failing
and `/a/y` succeeding, `load` completes and inserts both keys: `y` is
processed after the failure, and `x` is inserted with the
default-constructed buffer value instead of being reported as an error. -/
theorem load_fetch_failure_cex :
    srcF.get (str "/a/x") = none
    ∧ (ParamMapper.load srcF ParamMapper.empty (str "/a/")).map
        = [(str "x", ⟨.invalid⟩), (str "y", ⟨.int 2⟩)]
    ∧ str "y" ∈ mapKeys (ParamMapper.load srcF ParamMapper.empty (str "/a/")).map :=
  ⟨rfl, rfl, by decide⟩

/-- C4 (amended): `load` ignores individual fetch failures: the return value
of the source's fetch is discarded, so no error is surfaced and no name is
skipped — every matched name ends up as a stripped key and previously
present keys are preserved, whatever the fetch outcomes; a key whose fetch
failed receives the value left in the reused fetch buffer (the last
successfully fetched value of that call, or the default-constructed value),
as the `srcG` instance shows (`/a/q` fails and receives the value `5`
fetched for `/a/p`). -/
theorem load_ignores_fetch_failures (src : ParamSource) (pm : ParamMapper) (ns : Str) :
    (∀ n ∈ src.names, (normalizeNs src.context ns).isPrefixOf n = true →
        n.drop (normalizeNs src.context ns).length ∈ mapKeys (pm.load src ns).map)
    ∧ (∀ k ∈ mapKeys pm.map, k ∈ mapKeys (pm.load src ns).map)
    ∧ (ParamMapper.load srcG ParamMapper.empty (str "/a/")).map
        = [(str "p", ⟨.int 5⟩), (str "q", ⟨.int 5⟩)] := by
  refine ⟨?_, ?_, rfl⟩
  · intro n hn hp
    exact load_keys.mpr (Or.inl ⟨n, hn, hp, rfl⟩)
  · intro k hk
    exact load_keys.mpr (Or.inr hk)

/-- C4 (witness): the name `/a/y`, listed after the failing `/a/x`, is still
merged, and a key loaded before a later failing fetch is preserved. -/
theorem load_ignores_fetch_failures_witness :
    (str "/a/y").drop (normalizeNs srcF.context (str "/a/")).length
      ∈ mapKeys (ParamMapper.load srcF ParamMapper.empty (str "/a/")).map
    ∧ str "k" ∈ mapKeys (ParamMapper.load src8b pm8a (str "/a/")).map :=
  ⟨(load_ignores_fetch_failures srcF ParamMapper.empty (str "/a/")).1
      (str "/a/y") (by decide) (by decide),
   (load_ignores_fetch_failures src8b pm8a (str "/a/")).2.1
      (str "k") (by decide)⟩

/-- C5 (counterexample): `getKeys` does not enumerate in insertion order.
The source `srcO` reports `/n/b` before `/n/a`, so the keys are inserted in
the order `b`, `a`, yet `getKeys` returns `[a, b]` (the sorted iteration
order of `std::map`), not `[b, a]`. -/
theorem getKeys_insertion_order_cex :
    srcO.names.map (fun n => n.drop (normalizeNs srcO.context (str "/n/")).length)
      = [str "b", str "a"]
    ∧ pmO.getKeys = [str "a", str "b"]
    ∧ pmO.getKeys ≠ [str "b", str "a"] :=
  ⟨rfl, rfl, by decide⟩

/-- C5 (amended): `getKeys` returns all currently known keys in strictly
increasing lexicographic order (the iteration order of the underlying
`std::map`), not insertion order; it returns the empty sequence exactly on
the empty store, and — being a pure function of the store — the same
sequence on every call with no intervening mutation.  The sortedness
invariant is maintained by `load` and `reload`. -/
theorem getKeys_sorted_enumeration (pm : ParamMapper) (h : SortedMap pm.map) :
    pm.getKeys.Pairwise (fun a b => strLt a b = true)
    ∧ (pm.getKeys = [] ↔ pm.map = [])
    ∧ (∀ src ns, SortedMap (pm.load src ns).map)
    ∧ (∀ src, SortedMap (pm.reload src).map) := by
  refine ⟨?_, ?_, fun src ns => load_sorted h, fun src => ?_⟩
  · rw [ParamMapper.getKeys]
    split_ifs with he
    · exact List.Pairwise.nil
    · rw [mapKeys, List.pairwise_map]
      exact h
  · rw [ParamMapper.getKeys]
    split_ifs with he
    · simp only [List.isEmpty_iff] at he
      simp [he]
    · simp only [List.isEmpty_iff] at he
      simp [mapKeys, List.map_eq_nil_iff, he]
  · rw [reload_eq_loadSeq]
    exact loadSeq_sorted List.Pairwise.nil

/-- C5 (witness): the `/n/` store is sorted and its keys enumerate in
lexicographic order. -/
theorem getKeys_sorted_enumeration_witness :
    SortedMap pmO.map
    ∧ pmO.getKeys.Pairwise (fun a b => strLt a b = true)
    ∧ (pmO.getKeys = [] ↔ pmO.map = []) := by
  have hS : SortedMap pmO.map := by
    show pmO.map.Pairwise (fun p q => strLt p.1 q.1 = true)
    decide
  exact ⟨hS, (getKeys_sorted_enumeration pmO hS).1,
    (getKeys_sorted_enumeration pmO hS).2.1⟩

/-- C6 (counterexample): an empty namespace argument does not denote the
root namespace relative to the caller's context: with caller context
`/foo`, the empty argument normalizes to the absolute root `/` — the
context is not consulted at all — rather than to `/foo/`. -/
theorem load_empty_ns_context_cex :
    normalizeNs (str "/foo") [] = str "/"
    ∧ normalizeNs (str "/foo") [] ≠ str "/foo/"
    ∧ (str "/foo").isPrefixOf (normalizeNs (str "/foo") []) = false :=
  ⟨rfl, by decide, by decide⟩

/-- C6 (amended): the namespace used for querying and prefix matching always
ends with the separator `/`; a non-empty argument that is not absolute
(does not begin with `/`) is resolved by prepending the caller's current
context path verbatim; an absolute argument is used as is; and an empty
argument denotes the absolute root namespace `/`, independent of the
caller's context. -/
theorem load_ns_normalization (ctx ns : Str) :
    (normalizeNs ctx ns).getLast? = some '/'
    ∧ (ns ≠ [] → ns.head? ≠ some '/' → normalizeNs ctx ns = ctx ++ ensureSlash ns)
    ∧ (ns.head? = some '/' → normalizeNs ctx ns = ensureSlash ns)
    ∧ normalizeNs ctx [] = str "/" :=
  ⟨normalizeNs_getLast ctx ns,
   fun h1 h2 => normalizeNs_rel h1 h2,
   fun h => normalizeNs_abs h,
   rfl⟩

/-- C6 (witness): with context `/r/`, the relative namespace `a` resolves to
`/r/a/` and obtains its trailing separator. -/
theorem load_ns_normalization_witness :
    normalizeNs (str "/r/") (str "a") = (str "/r/") ++ ensureSlash (str "a")
    ∧ (normalizeNs (str "/r/") (str "a")).getLast? = some '/'
    ∧ normalizeNs (str "/r/") [] = str "/" :=
  ⟨(load_ns_normalization (str "/r/") (str "a")).2.1 (by decide) (by decide),
   (load_ns_normalization (str "/r/") (str "a")).1,
   (load_ns_normalization (str "/r/") []).2.2.2⟩

/-- C7 (confirmed, against the spec-modelled conversions): `as<T>()` fails
with `TypeMismatch` when the stored variant cannot represent `T` (an
integer requested from a string, a string requested from a boolean), and
performs the documented widenings: `as<double>()` on the integer `7`
returns `7.0`, `as<double>()` widens every integer, and boolean→integer
widening succeeds. -/
theorem paramValue_as_conversions :
    (∀ s : Str, ParamValue.asInt ⟨.strVal s⟩ = .error .typeMismatch)
    ∧ ParamValue.asDouble ⟨.int 7⟩ = .ok 7
    ∧ (∀ b : Bool, ParamValue.asInt ⟨.boolean b⟩ = .ok (if b then 1 else 0))
    ∧ (∀ i : Int, ParamValue.asDouble ⟨.int i⟩ = .ok (i : Rat))
    ∧ (∀ b : Bool, ParamValue.asString ⟨.boolean b⟩ = .error .typeMismatch) := by
  refine ⟨fun s => rfl, ?_, fun b => rfl, fun i => rfl, fun b => rfl⟩
  show Except.ok ((7 : Int) : Rat) = Except.ok (7 : Rat)
  norm_num

/-- C8 (confirmed): `load` is additive/overwrite-only: every key present
before a `load` is still present after it (no key is ever removed), and the
spec's scenario holds: after `load("/a/")` with `k = 1`, a second
`load("/a/")` against the changed source overwrites `k` to `2` and adds
`j = 3`, with the key set grown, not replaced. -/
theorem load_additive_overwrite :
    (∀ (src : ParamSource) (pm : ParamMapper) (ns : Str),
        ∀ k ∈ mapKeys pm.map, k ∈ mapKeys (pm.load src ns).map)
    ∧ mapFind (str "k") pm8a.map = some ⟨.int 1⟩
    ∧ mapFind (str "k") pm8b.map = some ⟨.int 2⟩
    ∧ mapFind (str "j") pm8b.map = some ⟨.int 3⟩
    ∧ mapKeys pm8a.map = [str "k"]
    ∧ mapKeys pm8b.map = [str "j", str "k"] :=
  ⟨fun src pm ns k hk => load_keys.mpr (Or.inr hk), rfl, rfl, rfl, rfl, rfl⟩

/-- C8 (witness): the key `k` of the first load survives the second load. -/
theorem load_additive_overwrite_witness :
    str "k" ∈ mapKeys (ParamMapper.load src8b pm8a (str "/a/")).map :=
  load_additive_overwrite.1 src8b pm8a (str "/a/") (str "k") (by decide)

/-- C9 (confirmed, element conversion semantics spec-modelled): `as_vec`
fully replaces the target container: the result does not depend on the
vector's prior contents, and on a list value it is exactly the stored
elements converted in order; the conversion fails with `TypeMismatch` when
the value is not a list, and fails whenever any element conversion fails. -/
theorem as_vec_replaces_target :
    ∀ (T : Type) (conv : XmlRpcValue → Except RushError T),
    (∀ (p : ParamValue) (x1 x2 : List T), as_vec conv p x1 = as_vec conv p x2)
    ∧ (∀ (l : List XmlRpcValue) (x : List T),
        as_vec conv ⟨.list l⟩ x = convertedElems conv l)
    ∧ (∀ (p : ParamValue) (x : List T),
        (∀ l, p.value_ ≠ .list l) → as_vec conv p x = .error .typeMismatch)
    ∧ (∀ (l : List XmlRpcValue) (x : List T) (e : XmlRpcValue) (err : RushError),
        e ∈ l → conv e = .error err →
        ∃ err2, as_vec conv ⟨.list l⟩ x = .error err2) := by
  intro T conv
  have hx0 : ∀ (x : List T), (if x.isEmpty then x else ([] : List T)) = [] := by
    intro x
    cases x <;> rfl
  have hlist : ∀ (l : List XmlRpcValue) (x : List T),
      as_vec conv ⟨.list l⟩ x = convertedElems conv l := by
    intro l x
    show as_vecLoop conv l (if x.isEmpty then x else []) = convertedElems conv l
    rw [hx0, as_vecLoop_eq]
    cases convertedElems conv l with
    | error err => rfl
    | ok l2 => simp [Except.map]
  refine ⟨?_, hlist, ?_, ?_⟩
  · intro p x1 x2
    obtain ⟨v⟩ := p
    cases v with
    | list l => rw [hlist, hlist]
    | invalid => rfl
    | boolean b => rfl
    | int i => rfl
    | double d => rfl
    | strVal s => rfl
  · intro p x hp
    obtain ⟨v⟩ := p
    cases v with
    | list l => exact absurd rfl (hp l)
    | invalid => rfl
    | boolean b => rfl
    | int i => rfl
    | double d => rfl
    | strVal s => rfl
  · intro l x e err he hc
    obtain ⟨err2, h2⟩ := convertedElems_error conv he hc
    exact ⟨err2, by rw [hlist, h2]⟩

/-- C9 (witness): converting a concrete list into a non-empty target yields
exactly the converted elements; a non-list value and a list with an
inconvertible element fail with `TypeMismatch`. -/
theorem as_vec_replaces_target_witness :
    as_vec xmlAsInt ⟨.list [.int 1, .boolean true]⟩ [5, 6] = .ok [1, 1]
    ∧ as_vec xmlAsInt ⟨.int 3⟩ ([] : List Int) = .error .typeMismatch
    ∧ ∃ err2, as_vec xmlAsInt ⟨.list [.strVal (str "s")]⟩ ([7] : List Int)
        = .error err2 :=
  ⟨((as_vec_replaces_target Int xmlAsInt).2.1 [.int 1, .boolean true] [5, 6]).trans rfl,
   (as_vec_replaces_target Int xmlAsInt).2.2.1 ⟨.int 3⟩ []
     (fun l h => XmlRpcValue.noConfusion h),
   (as_vec_replaces_target Int xmlAsInt).2.2.2 [.strVal (str "s")] [7]
     (.strVal (str "s")) .typeMismatch (List.mem_cons_self _ _) rfl⟩

/-- C10 (confirmed): `load` records the namespace string in `ns_` exactly as
passed, before any normalization; re-registering the identical string is a
no-op, while textual variants that normalize identically (such as `a` and
`a/`) are tracked as two distinct namespaces, and a subsequent `reload()`
performs one `load` per textual variant, in set order. -/
theorem ns_registered_raw :
    (∀ (src : ParamSource) (pm : ParamMapper) (ns : Str),
        (pm.load src ns).ns_ = setInsert ns pm.ns_)
    ∧ (∀ (x : Str) (s : List Str), setInsert x (setInsert x s) = setInsert x s)
    ∧ (ParamMapper.load srcR (ParamMapper.load srcR ParamMapper.empty (str "a")) (str "a/")).ns_
        = [str "a", str "a/"]
    ∧ str "a" ≠ str "a/"
    ∧ (ParamMapper.load srcR (ParamMapper.load srcR ParamMapper.empty (str "a")) (str "a")).ns_
        = [str "a"]
    ∧ ParamMapper.reload srcR
        (ParamMapper.load srcR (ParamMapper.load srcR ParamMapper.empty (str "a")) (str "a/"))
      = ParamMapper.load srcR
          (ParamMapper.load srcR { map := [], ns_ := [str "a", str "a/"] } (str "a"))
          (str "a/") :=
  ⟨fun src pm ns => rfl, setInsert_idem, rfl, by decide, rfl, rfl⟩

end Rush
